import Mathlib

/-!
Verification development for the Kaml ranking bot.

The Python sources `player.py`, `kamlbot.py` and `save_and_load.py` are embedded
shallowly: Python dicts become association lists with unique keys, Python sets
become lists used up to membership, floats become rationals, and fallible code
(dict `KeyError`, `ZeroDivisionError`, raised `PlayerNotFoundError`) returns
`Option`/`Except` values.  Definitions whose doc comment starts with
"Modelled from the spec:" stand for code of the repository that is not part of
the provided sources (`ranking.py`, `utils.py`) and follow the specification's
words instead.
-/

namespace Kaml

/-! ### Association lists (shallow model of Python `dict`)

Keys are unique in every map built by the code, so `insertA` replaces in place
(keeping the insertion-order position, as Python dicts do) and `eraseA` removes
the unique binding.  `lookupA` is `d[k]` returning `Option` instead of raising
`KeyError`. -/

def lookupA {K V : Type} [DecidableEq K] : List (K × V) → K → Option V
  | [], _ => none
  | (k, v) :: rest, k' => if k' = k then some v else lookupA rest k'

def insertA {K V : Type} [DecidableEq K] : List (K × V) → K → V → List (K × V)
  | [], k, v => [(k, v)]
  | (k0, v0) :: rest, k, v =>
      if k = k0 then (k, v) :: rest else (k0, v0) :: insertA rest k v

def eraseA {K V : Type} [DecidableEq K] : List (K × V) → K → List (K × V)
  | [], _ => []
  | (k0, v0) :: rest, k => if k = k0 then rest else (k0, v0) :: eraseA rest k

def keysA {K V : Type} (l : List (K × V)) : List K := l.map Prod.fst

/-! ### Data model (`player.py`) -/

/-- `PlayerState`, the `namedtuple("PlayerState", ["rank", "mu", "sigma", "score"])`
snapshotted into a player's history. -/
structure PlayerState where
  rank : Option Nat
  mu : ℚ
  sigma : ℚ
  score : ℚ
deriving DecidableEq, Repr

/-- Default rating mean: `trueskill.Rating()` uses `mu = 25`. -/
def mu0 : ℚ := 25

/-- Default rating uncertainty: `trueskill.Rating()` uses `sigma = 25/3`. -/
def sigma0 : ℚ := 25 / 3

/-- Performance variance: the trueskill default `beta = sigma0 / 2 = 25/6`
(the spec's fixed constant `beta`). -/
def beta : ℚ := 25 / 6

/-- The `Player` class of `player.py`.  The trueskill `rating` object is
flattened into its `mu`/`sigma` fields; `states` is the `OrderedDict` history
keyed by timestamp.  `aliases` is a Python `set` modelled as a list used up to
membership. -/
structure Player where
  id : Int
  aliases : List String
  claimed : Bool
  mention : Option String
  wins : Nat
  losses : Nat
  rank : Option Nat
  mu : ℚ
  sigma : ℚ
  states : List (ℚ × PlayerState)
deriving DecidableEq, Repr

/-- `Player.score`: `return self.mu - 3*self.sigma`. -/
def Player.score (p : Player) : ℚ := p.mu - 3 * p.sigma

/-- `Player.total_games`: `return self.wins + self.losses`. -/
def Player.total_games (p : Player) : Nat := p.wins + p.losses

/-- `Player.win_ratio`: `return self.wins/self.total_games`.  The division is
unguarded in the source; with zero games Python raises `ZeroDivisionError`,
modelled as `none`. -/
def Player.win_ratio (p : Player) : Option ℚ :=
  if p.total_games = 0 then none else some ((p.wins : ℚ) / (p.total_games : ℚ))

/-- `Player.save_state(timestamp, rank)`: stores a `PlayerState` snapshot under
the timestamp.  Writing an existing key of an `OrderedDict` keeps its position,
matching `insertA`. -/
def Player.save_state (p : Player) (timestamp : ℚ) (rank : Option Nat) : Player :=
  let st : PlayerState := { rank := rank, mu := p.mu, sigma := p.sigma, score := p.score }
  { p with states := insertA p.states timestamp st }

/-- `Player(name=...)`: a freshly auto-created, unclaimed player.  `id` is the
current value of the class counter `Player._id_counter`. -/
def newPlayerByName (name : String) (id : Int) : Player :=
  { id := id, aliases := [name], claimed := false, mention := some name,
    wins := 0, losses := 0, rank := none, mu := mu0, sigma := sigma0, states := [] }

/-- `Player(player_id=..., aliases=...)`: a claimed player.  `set(aliases)`
deduplicates; `mention = list(aliases)[0]` is modelled by `head?` (Python would
raise `IndexError` on an empty set, a corner never exercised here because
callers pass non-empty alias collections). -/
def newPlayerById (player_id : Int) (aliases : List String) : Player :=
  { id := player_id, aliases := aliases.dedup, claimed := true, mention := aliases.head?,
    wins := 0, losses := 0, rank := none, mu := mu0, sigma := sigma0, states := [] }

/-- The `PlayerManager` registry.  `alias_to_id` has `Option String` keys
because `add_player` executes `self.alias_to_id[name] = player_id` even when
`name` is `None` (the `player_id`/`aliases` call pattern), inserting a literal
`None` key into the Python dict.  `counter` models the class-level
`Player._id_counter`. -/
structure PlayerManager where
  alias_to_id : List (Option String × Int)
  id_to_player : List (Int × Player)
  counter : Int
deriving DecidableEq, Repr

/-- A fresh `PlayerManager()` with the id counter at its initial value. -/
def emptyPM : PlayerManager := { alias_to_id := [], id_to_player := [], counter := 0 }

/-- `PlayerManager.alias_exists(alias)`: `alias in self.alias_to_id` for a
string alias. -/
def alias_exists (m : PlayerManager) (a : String) : Bool :=
  (lookupA m.alias_to_id (some a)).isSome

/-- `PlayerManager.id_exists(player_id)`. -/
def id_exists (m : PlayerManager) (player_id : Int) : Bool :=
  (lookupA m.id_to_player player_id).isSome

/-- `PlayerManager.players`: the dict's values in insertion order. -/
def players (m : PlayerManager) : List Player := m.id_to_player.map Prod.snd

/-- `PlayerManager.get_aliases(filter)`: union of the alias sets of the players
passing the filter. -/
def get_aliases (m : PlayerManager) (f : Player → Bool) : List String :=
  (((players m).filter f).map Player.aliases).flatten

/-- `PlayerManager.claimed_aliases`. -/
def claimed_aliases (m : PlayerManager) : List String :=
  get_aliases m (fun p => p.claimed)

/-- `PlayerManager.is_claimed(alias)`. -/
def is_claimed (m : PlayerManager) (a : String) : Bool :=
  decide (a ∈ claimed_aliases m)

/-- Modelled from the spec: `ChainedDict` lives in `utils.py`, which is not
among the sources; the spec's Identity Registry keeps the "bidirectional
mapping alias→id and id→Player", and `alias_to_player` composes the two maps,
raising `KeyError` (here `none`) on a missing key at either stage. -/
def alias_to_player (m : PlayerManager) (a : String) : Option Player :=
  match lookupA m.alias_to_id (some a) with
  | none => none
  | some q => lookupA m.id_to_player q

/-- The two call patterns of `PlayerManager.add_player`. -/
inductive AddArgs where
  | byName (name : String)
  | byId (player_id : Int) (aliases : List String)
deriving DecidableEq, Repr

/-- `PlayerManager.add_player`.  In the `byId` branch the Python local `name`
is `None`, so `self.alias_to_id[name] = player_id` inserts the `None` key. -/
def add_player (m : PlayerManager) : AddArgs → PlayerManager × Player
  | .byName n =>
      let p := newPlayerByName n m.counter
      ({ alias_to_id := insertA m.alias_to_id (some n) p.id,
         id_to_player := insertA m.id_to_player p.id p,
         counter := m.counter + 1 }, p)
  | .byId pid als =>
      let p := newPlayerById pid als
      ({ alias_to_id := insertA m.alias_to_id none pid,
         id_to_player := insertA m.id_to_player pid p,
         counter := m.counter }, p)

/-- Python `set.update`: union, keeping existing elements. -/
def sUnion (xs ys : List String) : List String :=
  xs ++ ys.filter (fun y => decide (y ∉ xs))

/-- The deletion loop of `associate_aliases`: for every already-present alias,
`past_id = self.alias_to_id[alias]; del self.id_to_player[past_id]`.  A missing
key in either dict raises `KeyError`, modelled as `none`. -/
def delFound (m : PlayerManager) : List String → Option PlayerManager
  | [] => some m
  | a :: rest =>
      match lookupA m.alias_to_id (some a) with
      | none => none
      | some past_id =>
          match lookupA m.id_to_player past_id with
          | none => none
          | some _ => delFound { m with id_to_player := eraseA m.id_to_player past_id } rest

/-- The final loop of `associate_aliases`:
`for alias in aliases: self.alias_to_id[alias] = player_id`. -/
def remapAliases (player_id : Int) : PlayerManager → List String → PlayerManager
  | m, [] => m
  | m, a :: rest =>
      remapAliases player_id
        { m with alias_to_id := insertA m.alias_to_id (some a) player_id } rest

/-- `PlayerManager.associate_aliases(player_id, aliases)`: computes the
`found`/`not_found` partition, creates or grows the player's record, deletes
the previous owner of every found alias, remaps all proposed aliases, and
returns `(found, not_found)`.  The terminal `save_aliases(...)` call is a
durable-store side effect with no influence on the in-memory registry. -/
def associate_aliases (m : PlayerManager) (player_id : Int) (aliases : List String) :
    Option (PlayerManager × List String × List String) :=
  let found := aliases.filter (fun a => alias_exists m a)
  let not_found := aliases.filter (fun a => !alias_exists m a)
  let m1 :=
    match lookupA m.id_to_player player_id with
    | some p =>
        { m with id_to_player :=
            insertA m.id_to_player player_id { p with aliases := sUnion p.aliases aliases } }
    | none => (add_player m (.byId player_id aliases)).1
  match delFound m1 found with
  | none => none
  | some m2 => some (remapAliases player_id m2 aliases, found, not_found)

/-- `PlayerManager.extract_claims(aliases)`: the aliases already belonging to a
claimed player, each paired with its current owner.  The dict comprehension
raises `KeyError` (modelled `none`) if `alias_to_player` misses. -/
def extract_claims (m : PlayerManager) (aliases : List String) :
    Option (List (String × Player)) :=
  (aliases.filter (fun a => is_claimed m a)).mapM
    (fun a => (alias_to_player m a).map (fun p => (a, p)))

/-! ### Mention parsing and `get_player` (`save_and_load.py`, `player.py`) -/

/-- Python whitespace as stripped by `str.strip()` and `int(str)`. -/
def pyWS (c : Char) : Bool :=
  c = ' ' || c = '\t' || c = '\n' || c = '\r' || c = '\x0b' || c = '\x0c'

/-- Reading a non-empty all-digit character list as a number. -/
def digitsToNat : List Char → Option Nat
  | [] => none
  | l => if l.all Char.isDigit then some (l.foldl (fun n c => 10 * n + (c.toNat - 48)) 0)
         else none

/-- Python `int(s)` on a string: surrounding whitespace and a single sign are
allowed; anything else raises `ValueError` (modelled `none`). -/
def pyInt : List Char → Option Int
  | l =>
    let t := ((l.dropWhile pyWS).reverse.dropWhile pyWS).reverse
    match t with
    | '-' :: rest => (digitsToNat rest).map (fun n => -(n : Int))
    | '+' :: rest => (digitsToNat rest).map (fun n => (n : Int))
    | _ => (digitsToNat t).map (fun n => (n : Int))

/-- Index of the last occurrence of `>` in a character list. -/
def lastGtAux : List Char → Nat → Option Nat → Option Nat
  | [], _, acc => acc
  | c :: rest, i, acc => lastGtAux rest (i + 1) (if c = '>' then some i else acc)

def lastGt (l : List Char) : Option Nat := lastGtAux l 0 none

/-- Error kinds raised out of `get_player`: the `PlayerNotFoundError` class of
`player.py` (carrying the offending identifier), a raw `KeyError` from an
unguarded dict access, and `ValueError` from `int(...)`. -/
inductive GPErr where
  | playerNotFound (who : Int ⊕ String)
  | keyError
  | valueError
deriving DecidableEq, Repr

/-- `parse_mention_to_id(mention)`: `re.match` of `<@(.+)>` anchored at the
start only; `.` does not cross a newline and `.+` is greedy, so the group runs
to the last `>` of the newline-free prefix after `<@` and must be non-empty.
`int(...)` on a non-numeric group raises `ValueError`. -/
def parse_mention_to_id (s : String) : Except GPErr (Option Int) :=
  let cs := s.data
  if cs.take 2 = ['<', '@'] then
    let u := (cs.drop 2).takeWhile (fun c => c ≠ '\n')
    match lastGt u with
    | none => .ok none
    | some j =>
        if j = 0 then .ok none
        else
          match pyInt (u.take j) with
          | some n => .ok (some n)
          | none => .error .valueError
  else .ok none

/-- `PlayerManager.get_player(alias, test_mention, create_missing)`.  The alias
argument is an `int` (`Sum.inl`) or a string (`Sum.inr`).  In the mention
branch the source reads `self.id_to_player[player_id]` without an existence
check, so an unknown id raises `KeyError`, not `PlayerNotFoundError`. -/
def get_player (m : PlayerManager) (al : Int ⊕ String)
    (test_mention : Bool) (create_missing : Bool) :
    Except GPErr (PlayerManager × Player) :=
  match al with
  | .inl pid =>
      match lookupA m.id_to_player pid with
      | none => .error (.playerNotFound (.inl pid))
      | some p => .ok (m, p)
  | .inr s =>
      match (if test_mention then parse_mention_to_id s else .ok none) with
      | .error e => .error e
      | .ok (some pid) =>
          match lookupA m.id_to_player pid with
          | none => .error .keyError
          | some p => .ok (m, p)
      | .ok none =>
          if alias_exists m s then
            match alias_to_player m s with
            | none => .error .keyError
            | some p => .ok (m, p)
          else if create_missing then .ok (add_player m (.byName s))
          else .error (.playerNotFound (.inr s))

/-! ### The `alias` command (`kamlbot.py`) -/

/-- Outcome of the `alias` command, up to the message templating. -/
inductive AliasCmdOutcome where
  | antiJet
  | noNames
  | taken (conflicts : List (String × Player))
  | ok (found not_found : List String)
deriving DecidableEq, Repr

/-- The state-relevant body of the `alias` command of `kamlbot.py`: the
anti-jet easter-egg guard, the empty-batch guard, the `extract_claims`
conflict check which aborts the whole batch, and on success the call to
`associate_aliases`.  The trailing `get_player(user.id)`/`update_mentions`
calls and all channel messages are presentation and platform I/O. -/
def alias_cmd (jet_id : Int) (jet_aliases : List String) (m : PlayerManager)
    (user_id : Int) (names : List String) :
    Option (PlayerManager × AliasCmdOutcome) :=
  if user_id = jet_id ∧ names.any (fun n => decide (n ∉ jet_aliases)) then
    some (m, .antiJet)
  else if names = [] then some (m, .noNames)
  else
    match extract_claims m names with
    | none => none
    | some tk =>
        if 0 < tk.length then some (m, .taken tk)
        else
          match associate_aliases m user_id names with
          | none => none
          | some (m', found, nf) => some (m', .ok found nf)

/-! ### Leaderboard slicing (`kamlbot.py` with the spec-modelled `Ranking`) -/

/-- Python slice-bound resolution for a sequence of length `n` (step 1):
negative indices count from the end, then both bounds clamp into `[0, n]`. -/
def pyBound (n : Nat) (i : Int) : Nat :=
  if i < 0 then (n + i).toNat else min i.toNat n

/-- Python `l[a:b]` (step 1): never an error, only truncation. -/
def pySlice {α : Type} (l : List α) (a b : Int) : List α :=
  (l.take (pyBound l.length b)).drop (pyBound l.length a)

/-- Modelled from the spec: `Ranking.__getitem__` lives in `ranking.py`, which
is not among the sources.  The spec's Ranking Engine keeps the dense 1-based
`rank→player` ordering, and `self.ranking[start:stop]` in `kamlbot.py` applies
Python sequence slicing to that rank-ordered list. -/
def ranking_slice {α : Type} (ranked : List α) (a b : Int) : List α :=
  pySlice ranked a b

/-- The player-selection core of `Kamlbot.leaderboard_content(start, stop)`:
`if start >= 0: start -= 1` followed by `self.ranking[start:stop]`.  The
string templating around the selected players is presentation only. -/
def leaderboard_content {α : Type} (ranked : List α) (start stop : Int) : List α :=
  ranking_slice ranked (if 0 ≤ start then start - 1 else start) stop

/-! ### Pairwise comparison (spec-modelled `ranking.py` interface) -/

/-- Modelled from the spec: `win_estimate` is not among the sources (the
`compare` command calls `p1.win_estimate(p2)`), and the spec defines it as
`Φ((mu_a - mu_b) / c)` with `c = sqrt(2*beta^2 + sigma_a^2 + sigma_b^2)`.
The standard normal cdf `Φ` and the square root are irrational-valued, so they
are passed in as parameters `cdf` and `sq`. -/
def win_estimate (cdf sq : ℚ → ℚ) (a b : Player) : ℚ :=
  cdf ((a.mu - b.mu) / sq (2 * beta ^ 2 + a.sigma ^ 2 + b.sigma ^ 2))

/-- Modelled from the spec: `Ranking.comparison(p1, p2)` is not among the
sources; the spec has it return "the confident win probability if both have
played ≥1 game, else `None`". -/
def comparison (cdf sq : ℚ → ℚ) (a b : Player) : Option ℚ :=
  if 0 < a.total_games ∧ 0 < b.total_games then some (win_estimate cdf sq a b)
  else none

/-! ### Name sanitization (`save_and_load.py`) -/

/-- Python `str.strip()`. -/
def pyStrip (l : List Char) : List Char :=
  ((l.dropWhile pyWS).reverse.dropWhile pyWS).reverse

/-- `clean_name(s)`: `s.strip().replace(",", "_").replace("\n", " ")`.
Single-character replacement is a character map. -/
def clean_name (s : String) : String :=
  ⟨((pyStrip s.data).map (fun c => if c = ',' then '_' else c)).map
      (fun c => if c = '\n' then ' ' else c)⟩

/-! ### Player mutation history -/

/-- The primitive mutations the engine performs on one player: a rating change
(the trueskill update computed in `ranking.py`), a history snapshot via
`save_state`, and the win/loss counter increments. -/
inductive PlayerOp where
  | setRating (mu sigma : ℚ)
  | saveState (t : ℚ) (rank : Option Nat)
  | recordWin
  | recordLoss
deriving DecidableEq, Repr

def applyOp (p : Player) : PlayerOp → Player
  | .setRating mu sigma => { p with mu := mu, sigma := sigma }
  | .saveState t r => p.save_state t r
  | .recordWin => { p with wins := p.wins + 1 }
  | .recordLoss => { p with losses := p.losses + 1 }

def applyOps (p : Player) (ops : List PlayerOp) : Player := ops.foldl applyOp p

/-! ### The registry invariant -/

/-- The spec's registry invariant, read over every dict entry of
`alias_to_id` exactly as stated: the mapped player exists and its alias set
contains the key.  A `None` key cannot be contained in a set of string
aliases. -/
def invariantB (m : PlayerManager) : Bool :=
  m.alias_to_id.all (fun kv =>
    match lookupA m.id_to_player kv.2 with
    | none => false
    | some p =>
        match kv.1 with
        | none => false
        | some s => decide (s ∈ p.aliases))

/-- The registry invariant restricted to string keys, ignoring the `None` key
inserted by `add_player`'s id branch. -/
def invariantSB (m : PlayerManager) : Bool :=
  m.alias_to_id.all (fun kv =>
    match kv.1 with
    | none => true
    | some s =>
        match lookupA m.id_to_player kv.2 with
        | none => false
        | some p => decide (s ∈ p.aliases))

/-- Well-formedness of the dict representation: unique keys in both maps. -/
def NDK (m : PlayerManager) : Prop :=
  (keysA m.alias_to_id).Nodup ∧ (keysA m.id_to_player).Nodup

instance (m : PlayerManager) : Decidable (NDK m) := by
  unfold NDK; infer_instance

/-- Precondition under which `associate_aliases` is actually exercised by the
program: a proposed alias either is new, or is the sole alias of an existing
owner other than the claimant.  Auto-created (unclaimed) players always own
exactly the one alias they were created with, so every reachable claim
satisfies this. -/
def soleOwnerOK (m : PlayerManager) (pid : Int) (x : String) : Bool :=
  match lookupA m.alias_to_id (some x) with
  | none => true
  | some q =>
      decide (q ≠ pid) &&
                match lookupA m.id_to_player q with
                | none => false
                | some p => decide (p.aliases = [x])

/-! ### Association-list lemmas -/

theorem lookupA_insertA {K V : Type} [DecidableEq K] (l : List (K × V)) (k : K) (v : V)
    (k' : K) : lookupA (insertA l k v) k' = if k' = k then some v else lookupA l k' := by
  induction l with
  | nil => simp [insertA, lookupA]
  | cons hd tl ih =>
      obtain ⟨k0, v0⟩ := hd
      by_cases hk : k = k0
      · subst hk
        simp only [insertA, if_pos rfl, lookupA]
        by_cases hk' : k' = k <;> simp [hk']
      · simp only [insertA, if_neg hk, lookupA]
        by_cases hk' : k' = k0
        · subst hk'
          have hne : ¬k' = k := fun h => hk h.symm
          simp [hne]
        · simp [if_neg hk', ih]

theorem mem_keys_of_lookupA {K V : Type} [DecidableEq K] (l : List (K × V)) (k : K) (v : V)
    (h : lookupA l k = some v) : k ∈ keysA l := by
  induction l with
  | nil => simp [lookupA] at h
  | cons hd tl ih =>
      obtain ⟨k0, v0⟩ := hd
      simp only [lookupA] at h
      by_cases hk : k = k0
      · subst hk; simp [keysA]
      · simp only [if_neg hk] at h
        simp only [keysA, List.map_cons, List.mem_cons]
        exact Or.inr (ih h)

theorem lookupA_eq_none {K V : Type} [DecidableEq K] (l : List (K × V)) (k : K)
    (h : k ∉ keysA l) : lookupA l k = none := by
  cases hl : lookupA l k with
  | none => rfl
  | some v => exact absurd (mem_keys_of_lookupA l k v hl) h

theorem lookupA_eraseA {K V : Type} [DecidableEq K] (l : List (K × V)) (k k' : K)
    (hnd : (keysA l).Nodup) :
    lookupA (eraseA l k) k' = if k' = k then none else lookupA l k' := by
  induction l with
  | nil => simp [eraseA, lookupA]
  | cons hd tl ih =>
      obtain ⟨k0, v0⟩ := hd
      simp only [keysA, List.map_cons, List.nodup_cons] at hnd
      by_cases hk : k = k0
      · subst hk
        simp only [eraseA, if_pos rfl]
        by_cases hk' : k' = k
        · subst hk'
          simp [lookupA_eq_none tl k' hnd.1]
        · simp [lookupA, if_neg hk']
      · simp only [eraseA, if_neg hk, lookupA]
        by_cases hk' : k' = k0
        · subst hk'
          have hne : ¬k' = k := fun h => hk h.symm
          simp [hne]
        · simp [if_neg hk', ih hnd.2]

theorem keysA_insertA_subset {K V : Type} [DecidableEq K] (l : List (K × V)) (k : K) (v : V) :
    ∀ k', k' ∈ keysA (insertA l k v) → k' = k ∨ k' ∈ keysA l := by
  induction l with
  | nil =>
      intro k' h
      simp [insertA, keysA] at h
      exact Or.inl h
  | cons hd tl ih =>
      obtain ⟨k0, v0⟩ := hd
      intro k' h
      by_cases hk : k = k0
      · subst hk
        rw [show insertA ((k, v0) :: tl) k v = (k, v) :: tl by simp [insertA]] at h
        simp only [keysA, List.map_cons, List.mem_cons] at h
        simp only [keysA, List.map_cons, List.mem_cons]
        tauto
      · simp only [insertA, if_neg hk, keysA, List.map_cons, List.mem_cons] at h
        simp only [keysA, List.map_cons, List.mem_cons]
        rcases h with h | h
        · tauto
        · rcases ih k' h with h' | h' <;> tauto

theorem nodup_keysA_insertA {K V : Type} [DecidableEq K] (l : List (K × V)) (k : K) (v : V)
    (hnd : (keysA l).Nodup) : (keysA (insertA l k v)).Nodup := by
  induction l with
  | nil => simp [insertA, keysA]
  | cons hd tl ih =>
      obtain ⟨k0, v0⟩ := hd
      simp only [keysA, List.map_cons, List.nodup_cons] at hnd
      by_cases hk : k = k0
      · subst hk
        simpa [insertA, keysA] using hnd
      · simp only [insertA, if_neg hk, keysA, List.map_cons, List.nodup_cons]
        refine ⟨?_, ih hnd.2⟩
        intro hmem
        rcases keysA_insertA_subset tl k v k0 hmem with h | h
        · exact hk h.symm
        · exact hnd.1 h

theorem keysA_eraseA_sublist {K V : Type} [DecidableEq K] (l : List (K × V)) (k : K) :
    (keysA (eraseA l k)).Sublist (keysA l) := by
  induction l with
  | nil => simp [eraseA, keysA]
  | cons hd tl ih =>
      obtain ⟨k0, v0⟩ := hd
      by_cases hk : k = k0
      · subst hk
        simp only [eraseA, if_pos rfl, keysA, List.map_cons]
        exact List.sublist_cons_self _ _
      · simp only [eraseA, if_neg hk, keysA, List.map_cons]
        exact List.Sublist.cons₂ _ ih

theorem nodup_keysA_eraseA {K V : Type} [DecidableEq K] (l : List (K × V)) (k : K)
    (hnd : (keysA l).Nodup) : (keysA (eraseA l k)).Nodup :=
  (keysA_eraseA_sublist l k).nodup hnd

theorem mem_lookupA {K V : Type} [DecidableEq K] (l : List (K × V)) (k : K) (v : V)
    (hnd : (keysA l).Nodup) (hmem : (k, v) ∈ l) : lookupA l k = some v := by
  induction l with
  | nil => simp at hmem
  | cons hd tl ih =>
      obtain ⟨k0, v0⟩ := hd
      simp only [keysA, List.map_cons, List.nodup_cons] at hnd
      rcases List.mem_cons.mp hmem with h | h
      · injection h with h1 h2
        subst h1; subst h2
        simp [lookupA]
      · have hk : k ≠ k0 := by
          intro hkk
          subst hkk
          exact hnd.1 (List.mem_map_of_mem Prod.fst h)
        simp [lookupA, if_neg hk, ih hnd.2 h]

theorem lookupA_mem {K V : Type} [DecidableEq K] (l : List (K × V)) (k : K) (v : V)
    (h : lookupA l k = some v) : (k, v) ∈ l := by
  induction l with
  | nil => simp [lookupA] at h
  | cons hd tl ih =>
      obtain ⟨k0, v0⟩ := hd
      simp only [lookupA] at h
      by_cases hk : k = k0
      · subst hk
        simp at h
        subst h
        exact List.mem_cons_self _ _
      · simp only [if_neg hk] at h
        exact List.mem_cons_of_mem _ (ih h)

theorem mem_insertA {K V : Type} [DecidableEq K] (l : List (K × V)) (k : K) (v : V)
    (e : K × V) (h : e ∈ insertA l k v) : e ∈ l ∨ e = (k, v) := by
  induction l with
  | nil => simpa [insertA] using (List.mem_singleton.mp h)
  | cons hd tl ih =>
      obtain ⟨k0, v0⟩ := hd
      by_cases hk : k = k0
      · subst hk
        rw [show insertA ((k, v0) :: tl) k v = (k, v) :: tl by simp [insertA]] at h
        rcases List.mem_cons.mp h with h | h
        · exact Or.inr h
        · exact Or.inl (List.mem_cons_of_mem _ h)
      · simp only [insertA, if_neg hk] at h
        rcases List.mem_cons.mp h with h | h
        · exact Or.inl (h ▸ List.mem_cons_self _ _)
        · rcases ih h with h' | h'
          · exact Or.inl (List.mem_cons_of_mem _ h')
          · exact Or.inr h'

/-! ### The semantic form of the string-restricted invariant -/

/-- Semantic reading of `invariantSB`: every string alias bound in
`alias_to_id` maps to an existing player whose alias set contains it. -/
def invariantS (m : PlayerManager) : Prop :=
  ∀ s q, lookupA m.alias_to_id (some s) = some q →
    ∃ p, lookupA m.id_to_player q = some p ∧ s ∈ p.aliases

theorem invariantSB_iff (m : PlayerManager) (hnd : (keysA m.alias_to_id).Nodup) :
    invariantSB m = true ↔ invariantS m := by
  constructor
  · intro hb s q hlk
    have hmem : (some s, q) ∈ m.alias_to_id := lookupA_mem _ _ _ hlk
    have := (List.all_eq_true.mp hb) _ hmem
    simp only at this
    cases hp : lookupA m.id_to_player q with
    | none => rw [hp] at this; simp at this
    | some p =>
        rw [hp] at this
        simp only [decide_eq_true_eq] at this
        exact ⟨p, rfl, this⟩
  · intro hs
    apply List.all_eq_true.mpr
    rintro ⟨ok, q⟩ hmem
    cases ok with
    | none => simp
    | some s =>
        have hlk : lookupA m.alias_to_id (some s) = some q := mem_lookupA _ _ _ hnd hmem
        obtain ⟨p, hp, hal⟩ := hs s q hlk
        simp [hp, hal]

/-! ### Behaviour of the `associate_aliases` loops -/

theorem mem_sUnion (xs ys : List String) (x : String) :
    x ∈ sUnion xs ys ↔ x ∈ xs ∨ x ∈ ys := by
  unfold sUnion
  constructor
  · intro h
    rcases List.mem_append.mp h with h | h
    · exact Or.inl h
    · exact Or.inr (List.mem_filter.mp h).1
  · intro h
    by_cases hx : x ∈ xs
    · exact List.mem_append.mpr (Or.inl hx)
    · rcases h with h | h
      · exact absurd h hx
      · exact List.mem_append.mpr (Or.inr (List.mem_filter.mpr ⟨h, by simpa using hx⟩))

theorem remap_id_to_player (pid : Int) (as : List String) :
    ∀ m, (remapAliases pid m as).id_to_player = m.id_to_player := by
  induction as with
  | nil => intro m; rfl
  | cons a rest ih => intro m; exact ih _

theorem remap_counter (pid : Int) (as : List String) :
    ∀ m, (remapAliases pid m as).counter = m.counter := by
  induction as with
  | nil => intro m; rfl
  | cons a rest ih => intro m; exact ih _

theorem lookupA_remap (pid : Int) (as : List String) :
    ∀ m k, lookupA (remapAliases pid m as).alias_to_id k =
      if ∃ a ∈ as, k = some a then some pid else lookupA m.alias_to_id k := by
  induction as with
  | nil => intro m k; simp [remapAliases]
  | cons a rest ih =>
      intro m k
      show lookupA (remapAliases pid _ rest).alias_to_id k = _
      rw [ih]
      by_cases hrest : ∃ b ∈ rest, k = some b
      · rw [if_pos hrest, if_pos ⟨hrest.choose, List.mem_cons_of_mem _ hrest.choose_spec.1,
          hrest.choose_spec.2⟩]
      · rw [if_neg hrest]
        simp only [lookupA_insertA]
        by_cases hka : k = some a
        · rw [if_pos hka, if_pos ⟨a, List.mem_cons_self _ _, hka⟩]
        · rw [if_neg hka, if_neg ?_]
          rintro ⟨b, hb, hkb⟩
          rcases List.mem_cons.mp hb with h | h
          · exact hka (h ▸ hkb)
          · exact hrest ⟨b, h, hkb⟩

theorem nodup_remap (pid : Int) (as : List String) :
    ∀ m, (keysA m.alias_to_id).Nodup → (keysA (remapAliases pid m as).alias_to_id).Nodup := by
  induction as with
  | nil => intro m h; exact h
  | cons a rest ih =>
      intro m h
      exact ih _ (nodup_keysA_insertA _ _ _ h)

theorem delFound_spec (fd : List String) :
    ∀ m : PlayerManager, (keysA m.id_to_player).Nodup →
    (∀ a ∈ fd, ∃ q, lookupA m.alias_to_id (some a) = some q ∧
        (lookupA m.id_to_player q).isSome) →
    (∀ a ∈ fd, ∀ b ∈ fd, ∀ qa qb, lookupA m.alias_to_id (some a) = some qa →
        lookupA m.alias_to_id (some b) = some qb → qa = qb → a = b) →
    fd.Nodup →
    ∃ m2, delFound m fd = some m2 ∧
      m2.alias_to_id = m.alias_to_id ∧ m2.counter = m.counter ∧
      (keysA m2.id_to_player).Nodup ∧
      ∀ r, lookupA m2.id_to_player r =
        if ∃ a ∈ fd, lookupA m.alias_to_id (some a) = some r then none
        else lookupA m.id_to_player r := by
  induction fd with
  | nil =>
      intro m hnd _ _ _
      exact ⟨m, rfl, rfl, rfl, hnd, fun r => by simp⟩
  | cons a rest ih =>
      intro m hnd hfd hinj hdup
      obtain ⟨q, hq, hpq⟩ := hfd a (List.mem_cons_self _ _)
      obtain ⟨p, hp⟩ := Option.isSome_iff_exists.mp hpq
      have hanotin : a ∉ rest := (List.nodup_cons.mp hdup).1
      set m1 : PlayerManager := { m with id_to_player := eraseA m.id_to_player q } with hm1
      have hm1alias : m1.alias_to_id = m.alias_to_id := rfl
      have hm1lookup : ∀ r, lookupA m1.id_to_player r =
          if r = q then none else lookupA m.id_to_player r := by
        intro r
        exact lookupA_eraseA m.id_to_player q r hnd
      have hstep : delFound m (a :: rest) = delFound m1 rest := by
        simp only [delFound, hq, hp]
      obtain ⟨m2, hdel, halias, hcount, hnd2, hlk⟩ := ih m1
        (nodup_keysA_eraseA _ _ hnd)
        (by
          intro b hb
          obtain ⟨qb, hqb, hpb⟩ := hfd b (List.mem_cons_of_mem _ hb)
          refine ⟨qb, hqb, ?_⟩
          rw [hm1lookup]
          have hbq : qb ≠ q := by
            intro hqq
            exact hanotin ((hinj b (List.mem_cons_of_mem _ hb) a (List.mem_cons_self _ _)
              qb q hqb hq hqq) ▸ hb)
          rw [if_neg hbq]
          exact hpb)
        (by
          intro b hb c hc qb qc hqb hqc hqq
          exact hinj b (List.mem_cons_of_mem _ hb) c (List.mem_cons_of_mem _ hc) qb qc hqb hqc hqq)
        (List.nodup_cons.mp hdup).2
      refine ⟨m2, hstep ▸ hdel, halias.trans hm1alias, hcount, hnd2, ?_⟩
      intro r
      rw [hlk r]
      simp only [hm1alias]
      by_cases hrest : ∃ b ∈ rest, lookupA m.alias_to_id (some b) = some r
      · rw [if_pos hrest, if_pos ?_]
        obtain ⟨b, hb, hbr⟩ := hrest
        exact ⟨b, List.mem_cons_of_mem _ hb, hbr⟩
      · rw [if_neg hrest, hm1lookup]
        by_cases hr : r = q
        · subst hr
          rw [if_pos rfl, if_pos ⟨a, List.mem_cons_self _ _, hq⟩]
        · rw [if_neg hr, if_neg ?_]
          rintro ⟨b, hb, hbr⟩
          rcases List.mem_cons.mp hb with h | h
          · subst h
            rw [hq] at hbr
            exact hr (Option.some.injEq .. ▸ hbr).symm
          · exact hrest ⟨b, h, hbr⟩

/-- Unpacked reading of the `soleOwnerOK` precondition. -/
theorem soleOwnerOK_spec (m : PlayerManager) (pid : Int) (a : String)
    (h : soleOwnerOK m pid a = true) :
    ∀ q, lookupA m.alias_to_id (some a) = some q →
      q ≠ pid ∧ ∃ p', lookupA m.id_to_player q = some p' ∧ p'.aliases = [a] := by
  intro q hq
  unfold soleOwnerOK at h
  simp only [hq] at h
  cases hp : lookupA m.id_to_player q with
  | none => simp only [hp] at h; simp at h
  | some p' =>
      simp only [hp, Bool.and_eq_true, decide_eq_true_eq] at h
      exact ⟨h.1, p', rfl, h.2⟩

/-- Core of `associate_aliases` after the create-or-grow step: `m1` is the
state holding the merged player `pm` under `pid`, and the deletion and remap
loops produce the characterized final state. -/
theorem associate_core (m m1 : PlayerManager) (pid : Int) (aliases : List String) (pm : Player)
    (hA1 : ∀ s, lookupA m1.alias_to_id (some s) = lookupA m.alias_to_id (some s))
    (hA2 : ∀ r, lookupA m1.id_to_player r =
        if r = pid then some pm else lookupA m.id_to_player r)
    (hndA1 : (keysA m1.alias_to_id).Nodup) (hndI1 : (keysA m1.id_to_player).Nodup)
    (hcnt1 : m1.counter = m.counter)
    (hsole : ∀ a ∈ aliases, soleOwnerOK m pid a = true) (hdup : aliases.Nodup) :
    ∃ m2, delFound m1 (aliases.filter (fun a => alias_exists m a)) = some m2 ∧
      (∀ s, lookupA (remapAliases pid m2 aliases).alias_to_id (some s) =
          if s ∈ aliases then some pid else lookupA m.alias_to_id (some s)) ∧
      lookupA (remapAliases pid m2 aliases).id_to_player pid = some pm ∧
      (∀ q, q ≠ pid → (∃ a ∈ aliases, lookupA m.alias_to_id (some a) = some q) →
          lookupA (remapAliases pid m2 aliases).id_to_player q = none) ∧
      (∀ q, q ≠ pid → (¬∃ a ∈ aliases, lookupA m.alias_to_id (some a) = some q) →
          lookupA (remapAliases pid m2 aliases).id_to_player q =
            lookupA m.id_to_player q) ∧
      (keysA (remapAliases pid m2 aliases).alias_to_id).Nodup ∧
      (keysA (remapAliases pid m2 aliases).id_to_player).Nodup ∧
      (remapAliases pid m2 aliases).counter = m.counter := by
  obtain ⟨m2, hdel, halias2, hcnt2, hndI2, hlk2⟩ :=
    delFound_spec (aliases.filter (fun a => alias_exists m a)) m1 hndI1
      (by
        intro a ha
        obtain ⟨haal, hex⟩ := List.mem_filter.mp ha
        simp only [alias_exists] at hex
        obtain ⟨q, hq⟩ := Option.isSome_iff_exists.mp hex
        obtain ⟨hqpid, p', hp', _⟩ := soleOwnerOK_spec m pid a (hsole a haal) q hq
        refine ⟨q, (hA1 a).trans hq, ?_⟩
        rw [hA2 q, if_neg hqpid, hp']
        rfl)
      (by
        intro a ha b hb qa qb hqa hqb hqq
        obtain ⟨haal, _⟩ := List.mem_filter.mp ha
        obtain ⟨hbal, _⟩ := List.mem_filter.mp hb
        rw [hA1 a] at hqa
        rw [hA1 b] at hqb
        obtain ⟨_, pa, hpa, hpaals⟩ := soleOwnerOK_spec m pid a (hsole a haal) qa hqa
        obtain ⟨_, pb, hpb, hpbals⟩ := soleOwnerOK_spec m pid b (hsole b hbal) qb hqb
        subst hqq
        rw [hpa] at hpb
        have : pa = pb := Option.some.injEq .. ▸ hpb
        have : ([a] : List String) = [b] := by rw [← hpaals, ← hpbals, this]
        exact (List.cons.injEq .. ▸ this).1)
      (hdup.filter _)
  refine ⟨m2, hdel, ?_, ?_, ?_, ?_, ?_, ?_, ?_⟩
  · intro s
    rw [lookupA_remap]
    by_cases hs : s ∈ aliases
    · rw [if_pos ⟨s, hs, rfl⟩, if_pos hs]
    · rw [if_neg ?_, if_neg hs]
      · rw [show m2.alias_to_id = m1.alias_to_id from halias2, hA1]
      · rintro ⟨a, ha, hsa⟩
        exact hs ((Option.some.injEq .. ▸ hsa) ▸ ha)
  · rw [remap_id_to_player, hlk2 pid]
    rw [if_neg ?_, hA2 pid, if_pos rfl]
    rintro ⟨a, ha, hap⟩
    obtain ⟨haal, _⟩ := List.mem_filter.mp ha
    rw [hA1 a] at hap
    exact (soleOwnerOK_spec m pid a (hsole a haal) pid hap).1 rfl
  · intro q hqpid ⟨a, ha, hq⟩
    rw [remap_id_to_player, hlk2 q, if_pos ?_]
    refine ⟨a, List.mem_filter.mpr ⟨ha, ?_⟩, (hA1 a).trans hq⟩
    simp only [alias_exists, hq]
    rfl
  · intro q hqpid hnone
    rw [remap_id_to_player, hlk2 q, if_neg ?_, hA2 q, if_neg hqpid]
    rintro ⟨a, ha, hq⟩
    obtain ⟨haal, _⟩ := List.mem_filter.mp ha
    rw [hA1 a] at hq
    exact hnone ⟨a, haal, hq⟩
  · exact nodup_remap pid aliases m2
      (by rw [show m2.alias_to_id = m1.alias_to_id from halias2]; exact hndA1)
  · rw [remap_id_to_player]; exact hndI2
  · rw [remap_counter]; exact hcnt2.trans hcnt1

/-- Full characterization of `associate_aliases` under the reachable-state
precondition `soleOwnerOK`: the call succeeds, all proposed aliases end up
bound to `pid`, the merged player holds both its previous aliases and the
proposed ones, previous owners of proposed aliases are removed, and everything
else is untouched. -/
theorem associate_spec (m : PlayerManager) (pid : Int) (aliases : List String)
    (hndA : (keysA m.alias_to_id).Nodup) (hndI : (keysA m.id_to_player).Nodup)
    (hsole : ∀ a ∈ aliases, soleOwnerOK m pid a = true) (hdup : aliases.Nodup) :
    ∃ m' pm, associate_aliases m pid aliases =
        some (m', aliases.filter (fun a => alias_exists m a),
          aliases.filter (fun a => !alias_exists m a)) ∧
      (∀ s, lookupA m'.alias_to_id (some s) =
          if s ∈ aliases then some pid else lookupA m.alias_to_id (some s)) ∧
      lookupA m'.id_to_player pid = some pm ∧
      (∀ x ∈ aliases, x ∈ pm.aliases) ∧
      (∀ p0, lookupA m.id_to_player pid = some p0 → ∀ x ∈ p0.aliases, x ∈ pm.aliases) ∧
      (∀ q, q ≠ pid → (∃ a ∈ aliases, lookupA m.alias_to_id (some a) = some q) →
          lookupA m'.id_to_player q = none) ∧
      (∀ q, q ≠ pid → (¬∃ a ∈ aliases, lookupA m.alias_to_id (some a) = some q) →
          lookupA m'.id_to_player q = lookupA m.id_to_player q) ∧
      (keysA m'.alias_to_id).Nodup ∧ (keysA m'.id_to_player).Nodup ∧
      m'.counter = m.counter := by
  cases h0 : lookupA m.id_to_player pid with
  | some p =>
      obtain ⟨m2, hdel, hR1, hR2, hR4, hR5, hN1, hN2, hC⟩ :=
        associate_core m
          { m with id_to_player :=
              insertA m.id_to_player pid { p with aliases := sUnion p.aliases aliases } }
          pid aliases { p with aliases := sUnion p.aliases aliases }
          (fun s => rfl)
          (fun r => lookupA_insertA m.id_to_player pid _ r)
          hndA (nodup_keysA_insertA _ _ _ hndI) rfl hsole hdup
      refine ⟨remapAliases pid m2 aliases, { p with aliases := sUnion p.aliases aliases },
        ?_, hR1, hR2, ?_, ?_, hR4, hR5, hN1, hN2, hC⟩
      · simp only [associate_aliases, h0, hdel]
      · intro x hx
        exact (mem_sUnion _ _ x).mpr (Or.inr hx)
      · intro p0 hp0 x hx
        injection hp0 with hpp
        subst hpp
        exact (mem_sUnion _ _ x).mpr (Or.inl hx)
  | none =>
      obtain ⟨m2, hdel, hR1, hR2, hR4, hR5, hN1, hN2, hC⟩ :=
        associate_core m (add_player m (.byId pid aliases)).1
          pid aliases (newPlayerById pid aliases)
          (by
            intro s
            show lookupA (insertA m.alias_to_id none pid) (some s) = _
            rw [lookupA_insertA, if_neg (by simp)])
          (fun r => lookupA_insertA m.id_to_player pid _ r)
          (nodup_keysA_insertA _ _ _ hndA) (nodup_keysA_insertA _ _ _ hndI) rfl hsole hdup
      refine ⟨remapAliases pid m2 aliases, newPlayerById pid aliases,
        ?_, hR1, hR2, ?_, ?_, hR4, hR5, hN1, hN2, hC⟩
      · simp only [associate_aliases, h0, hdel]
      · intro x hx
        exact List.mem_dedup.mpr hx
      · intro p0 hp0
        exact absurd hp0 (by simp)

/-! ### Invariant preservation helpers -/

theorem invariantS_add_byName (m : PlayerManager) (n : String)
    (hinv : invariantS m) (hfresh : lookupA m.id_to_player m.counter = none) :
    invariantS (add_player m (.byName n)).1 := by
  intro s q hq
  simp only [add_player] at hq ⊢
  rw [lookupA_insertA] at hq
  by_cases hs : (some s : Option String) = some n
  · rw [if_pos hs] at hq
    injection hq with hq'
    subst hq'
    injection hs with hs'
    subst hs'
    refine ⟨newPlayerByName s m.counter, ?_, ?_⟩
    · rw [lookupA_insertA, if_pos rfl]
    · simp [newPlayerByName]
  · rw [if_neg hs] at hq
    obtain ⟨p, hp, hal⟩ := hinv s q hq
    have hqc : q ≠ (newPlayerByName n m.counter).id := by
      intro hqq
      rw [hqq] at hp
      simp only [newPlayerByName] at hp
      rw [hfresh] at hp
      exact Option.noConfusion hp
    refine ⟨p, ?_, hal⟩
    rw [lookupA_insertA, if_neg hqc]
    exact hp

theorem invariantS_add_byId (m : PlayerManager) (pid : Int) (als : List String)
    (hinv : invariantS m) (hfresh : lookupA m.id_to_player pid = none) :
    invariantS (add_player m (.byId pid als)).1 := by
  intro s q hq
  simp only [add_player] at hq ⊢
  rw [lookupA_insertA, if_neg (by simp)] at hq
  obtain ⟨p, hp, hal⟩ := hinv s q hq
  have hqc : q ≠ pid := by
    intro hqq
    rw [hqq, hfresh] at hp
    exact Option.noConfusion hp
  refine ⟨p, ?_, hal⟩
  rw [lookupA_insertA, if_neg hqc]
  exact hp

theorem invariantS_assoc (m : PlayerManager) (pid : Int) (aliases : List String)
    (m' : PlayerManager) (fd nf : List String)
    (hndA : (keysA m.alias_to_id).Nodup) (hndI : (keysA m.id_to_player).Nodup)
    (hinv : invariantS m)
    (hsole : ∀ a ∈ aliases, soleOwnerOK m pid a = true) (hdup : aliases.Nodup)
    (heq : associate_aliases m pid aliases = some (m', fd, nf)) :
    invariantS m' ∧ (keysA m'.alias_to_id).Nodup ∧ (keysA m'.id_to_player).Nodup := by
  obtain ⟨m'', pm, heq', hR1, hR2, hpmNew, hpmOld, hR4, hR5, hN1, hN2, _⟩ :=
    associate_spec m pid aliases hndA hndI hsole hdup
  rw [heq] at heq'
  injection heq' with h1
  obtain ⟨h1, -⟩ := Prod.mk.injEq .. ▸ h1.symm
  subst h1
  refine ⟨?_, hN1, hN2⟩
  intro s q hq
  rw [hR1 s] at hq
  by_cases hs : s ∈ aliases
  · rw [if_pos hs] at hq
    injection hq with hq'
    subst hq'
    exact ⟨pm, hR2, hpmNew s hs⟩
  · rw [if_neg hs] at hq
    obtain ⟨p, hp, hal⟩ := hinv s q hq
    by_cases hqpid : q = pid
    · subst hqpid
      exact ⟨pm, hR2, hpmOld p hp s hal⟩
    · have hnoowner : ¬∃ a ∈ aliases, lookupA m.alias_to_id (some a) = some q := by
        rintro ⟨a, ha, hq'⟩
        obtain ⟨-, p', hp', hals'⟩ := soleOwnerOK_spec m pid a (hsole a ha) q hq'
        rw [hp] at hp'
        injection hp' with hpp
        subst hpp
        rw [hals'] at hal
        exact hs ((List.mem_singleton.mp hal) ▸ ha)
      refine ⟨p, ?_, hal⟩
      rw [hR5 q hqpid hnoowner]
      exact hp

theorem invariantS_get_player (m : PlayerManager) (al : Int ⊕ String)
    (tm cm : Bool) (m' : PlayerManager) (p : Player)
    (hinv : invariantS m) (hfresh : lookupA m.id_to_player m.counter = none)
    (hok : get_player m al tm cm = .ok (m', p)) :
    invariantS m' ∧ (m' = m ∨ m' = (add_player m (.byName (al.elim (fun _ => "") id))).1) := by
  cases al with
  | inl pid =>
      simp only [get_player] at hok
      cases hlk : lookupA m.id_to_player pid with
      | none => rw [hlk] at hok; exact Except.noConfusion hok
      | some p0 =>
          rw [hlk] at hok
          injection hok with h
          obtain ⟨h1, -⟩ := Prod.mk.injEq .. ▸ h.symm
          subst h1
          exact ⟨hinv, Or.inl rfl⟩
  | inr s =>
      simp only [get_player] at hok
      cases hpm : (if tm then parse_mention_to_id s else .ok none) with
      | error e => rw [hpm] at hok; exact Except.noConfusion hok
      | ok o =>
          rw [hpm] at hok
          cases o with
          | some pid =>
              simp only at hok
              cases hlk : lookupA m.id_to_player pid with
              | none => rw [hlk] at hok; exact Except.noConfusion hok
              | some p0 =>
                  rw [hlk] at hok
                  injection hok with h
                  obtain ⟨h1, -⟩ := Prod.mk.injEq .. ▸ h.symm
                  subst h1
                  exact ⟨hinv, Or.inl rfl⟩
          | none =>
              simp only at hok
              by_cases hex : alias_exists m s
              · rw [if_pos hex] at hok
                cases hap : alias_to_player m s with
                | none => rw [hap] at hok; exact Except.noConfusion hok
                | some p0 =>
                    rw [hap] at hok
                    injection hok with h
                    obtain ⟨h1, -⟩ := Prod.mk.injEq .. ▸ h.symm
                    subst h1
                    exact ⟨hinv, Or.inl rfl⟩
              · rw [if_neg hex] at hok
                cases cm with
                | false => simp only [Bool.false_eq_true, if_false] at hok
                           exact Except.noConfusion hok
                | true =>
                    simp only [if_true] at hok
                    injection hok with h
                    obtain ⟨h1, -⟩ := Prod.mk.injEq .. ▸ h.symm
                    subst h1
                    exact ⟨invariantS_add_byName m s hinv hfresh, Or.inr rfl⟩

/-! ### Claim C1 -/

/-- The registry state reached by claiming the fresh alias `x` for identity
`42` on an empty registry: `add_player`'s id branch has inserted the spurious
`None` key. -/
def mC1after : PlayerManager :=
  { alias_to_id := [(none, 42), (some "x", 42)],
    id_to_player := [(42, newPlayerById 42 ["x"])], counter := 0 }

/-- Claim C1, counterexample: the bidirectional-mapping invariant read over
every `(alias, id)` pair of `alias_to_id` is *not* preserved by the registry
operations.  Starting from the empty registry (where it holds), a single
`associate_aliases` claim of a fresh alias reaches a state violating it,
because `add_player`'s id branch executes `self.alias_to_id[name] = player_id`
with `name = None`, and `None` is not contained in the owner's alias set. -/
theorem C1_counterexample :
    invariantB emptyPM = true ∧
    associate_aliases emptyPM 42 ["x"] = some (mC1after, [], ["x"]) ∧
    invariantB mC1after = false :=
  ⟨rfl, rfl, rfl⟩

/-- Concrete registry used by witnesses: one claimed player `1` owning the
alias `w`. -/
def playerW : Player := newPlayerById 1 ["w"]

def mW : PlayerManager :=
  { alias_to_id := [(some "w", 1)], id_to_player := [(1, playerW)], counter := 0 }

/-- The registry reached from `mW` when identity `5` claims `["w", "v"]`. -/
def mW1 : PlayerManager :=
  { alias_to_id := [(some "w", 5), (none, 5), (some "v", 5)],
    id_to_player := [(5, newPlayerById 5 ["w", "v"])], counter := 0 }

/-- Claim C1, amended: restricted to string aliases (ignoring the spurious
`None` key inserted by `add_player`'s id branch), the invariant "every
`(alias, id)` pair of `alias_to_id` maps to an existing player whose alias set
contains the alias" is preserved by every registry operation: by `add_player`
with a fresh id, by `get_player` (including creation), and by
`associate_aliases` whenever each already-bound proposed alias is the sole
alias of an existing owner other than the claimant — which is how the program
always calls it, since auto-created unclaimed players own exactly their
creation alias. -/
theorem C1_amended (m : PlayerManager) (hnd : NDK m) (hinv : invariantSB m = true) :
    (∀ n, lookupA m.id_to_player m.counter = none →
        invariantSB (add_player m (.byName n)).1 = true) ∧
    (∀ pid als, lookupA m.id_to_player pid = none →
        invariantSB (add_player m (.byId pid als)).1 = true) ∧
    (∀ al tm cm m' p, lookupA m.id_to_player m.counter = none →
        get_player m al tm cm = .ok (m', p) → invariantSB m' = true) ∧
    (∀ pid aliases m' fd nf, aliases.Nodup →
        (∀ a ∈ aliases, soleOwnerOK m pid a = true) →
        associate_aliases m pid aliases = some (m', fd, nf) →
        invariantSB m' = true) := by
  have hinvS : invariantS m := (invariantSB_iff m hnd.1).mp hinv
  refine ⟨?_, ?_, ?_, ?_⟩
  · intro n hfresh
    exact (invariantSB_iff _ (nodup_keysA_insertA _ _ _ hnd.1)).mpr
      (invariantS_add_byName m n hinvS hfresh)
  · intro pid als hfresh
    exact (invariantSB_iff _ (nodup_keysA_insertA _ _ _ hnd.1)).mpr
      (invariantS_add_byId m pid als hinvS hfresh)
  · intro al tm cm m' p hfresh hok
    obtain ⟨hS, hcases⟩ := invariantS_get_player m al tm cm m' p hinvS hfresh hok
    rcases hcases with h | h
    · subst h
      exact hinv
    · subst h
      exact (invariantSB_iff _ (nodup_keysA_insertA _ _ _ hnd.1)).mpr hS
  · intro pid aliases m' fd nf hdup hsole heq
    obtain ⟨hS, hN1, _⟩ :=
      invariantS_assoc m pid aliases m' fd nf hnd.1 hnd.2 hinvS hsole hdup heq
    exact (invariantSB_iff _ hN1).mpr hS

/-- Witness for the amended C1 theorem at the concrete registry `mW`, one
instantiation per operation. -/
theorem C1_amended_witness :
    invariantSB (add_player mW (.byName "z")).1 = true ∧
    invariantSB (add_player mW (.byId 7 ["y"])).1 = true ∧
    invariantSB (add_player mW (.byName "u")).1 = true ∧
    invariantSB mW1 = true :=
  ⟨(C1_amended mW (by decide) rfl).1 "z" rfl,
   (C1_amended mW (by decide) rfl).2.1 7 ["y"] rfl,
   (C1_amended mW (by decide) rfl).2.2.1 (.inr "u") false true
     (add_player mW (.byName "u")).1 (add_player mW (.byName "u")).2 rfl rfl,
   (C1_amended mW (by decide) rfl).2.2.2 5 ["w", "v"] mW1 ["w"] ["v"]
     (by decide) (by decide) rfl⟩

/-! ### Claim C2 -/

theorem mapM_option_mem {α β : Type} (f : α → Option β) :
    ∀ (l : List α) (tk : List β), l.mapM f = some tk → ∀ b ∈ tk, ∃ a ∈ l, f a = some b := by
  intro l
  induction l with
  | nil =>
      intro tk h b hb
      simp only [List.mapM_nil, pure, Option.some.injEq] at h
      subst h
      simp at hb
  | cons a rest ih =>
      intro tk h b hb
      rw [List.mapM_cons] at h
      cases hfa : f a with
      | none => rw [hfa] at h; simp at h
      | some b0 =>
          rw [hfa] at h
          cases hrest : rest.mapM f with
          | none => rw [hrest] at h; simp at h
          | some bs =>
              rw [hrest] at h
              have htk : b0 :: bs = tk := by
                simpa using h
              rw [← htk] at hb
              rcases List.mem_cons.mp hb with hb | hb
              · exact ⟨a, List.mem_cons_self _ _, hb ▸ hfa⟩
              · obtain ⟨a', ha', hfa'⟩ := ih bs hrest b hb
                exact ⟨a', List.mem_cons_of_mem _ ha', hfa'⟩

/-- Everything `extract_claims` reports is a proposed alias that is currently
claimed, paired with its current owner. -/
theorem extract_claims_spec (m : PlayerManager) (names : List String)
    (tk : List (String × Player)) (hex : extract_claims m names = some tk) :
    ∀ pr ∈ tk, pr.1 ∈ names ∧ is_claimed m pr.1 = true ∧
      alias_to_player m pr.1 = some pr.2 := by
  intro pr hpr
  obtain ⟨a, ha, hfa⟩ := mapM_option_mem _ _ tk hex pr hpr
  obtain ⟨hnm, hcl⟩ := List.mem_filter.mp ha
  cases hap : alias_to_player m a with
  | none => rw [hap] at hfa; simp at hfa
  | some p =>
      rw [hap] at hfa
      have hpr' : (a, p) = pr := by
        simpa using hfa
      rw [← hpr']
      exact ⟨hnm, hcl, hap⟩

/-- A registry in which the claimed player `1` owns alias `foo`. -/
def playerFoo : Player := newPlayerById 1 ["foo"]

def mFoo : PlayerManager :=
  { alias_to_id := [(some "foo", 1)], id_to_player := [(1, playerFoo)], counter := 0 }

/-- Claim C2, counterexample: when user `2` proposes `["foo", "bar"]` and
`foo` is owned by the claimed player `1`, the `alias` command returns with the
conflict report and the registry unchanged — the non-conflicting alias `bar`
is *not* bound to the claimant, contradicting the claim that the other aliases
of the batch still succeed. -/
theorem C2_counterexample :
    alias_cmd 999 [] mFoo 2 ["foo", "bar"] = some (mFoo, .taken [("foo", playerFoo)]) ∧
    lookupA mFoo.alias_to_id (some "bar") = none :=
  ⟨rfl, rfl⟩

/-- Claim C2, amended: if any proposed alias is currently owned by a claimed
player (even the claimant itself), the `alias` command rejects the *entire*
batch: every conflicting alias is reported with its current owner, no state
change happens, so no other proposed alias is bound either, and in particular
the prior owner's ownership is unchanged. -/
theorem C2_amended (jid uid : Int) (jal : List String) (m : PlayerManager)
    (names : List String) (tk : List (String × Player))
    (hjet : uid ≠ jid) (hne : names ≠ [])
    (hex : extract_claims m names = some tk) (htk : tk ≠ []) :
    alias_cmd jid jal m uid names = some (m, .taken tk) ∧
    ∀ pr ∈ tk, pr.1 ∈ names ∧ is_claimed m pr.1 = true ∧
      alias_to_player m pr.1 = some pr.2 := by
  refine ⟨?_, extract_claims_spec m names tk hex⟩
  unfold alias_cmd
  rw [if_neg (fun h => hjet h.1), if_neg hne]
  simp only [hex]
  rw [if_pos (List.length_pos.mpr htk)]

/-- Witness for the amended C2 theorem at the concrete conflict state. -/
theorem C2_amended_witness :
    alias_cmd 999 [] mFoo 2 ["foo", "bar"] = some (mFoo, .taken [("foo", playerFoo)]) ∧
    ∀ pr ∈ [("foo", playerFoo)], pr.1 ∈ ["foo", "bar"] ∧ is_claimed mFoo pr.1 = true ∧
      alias_to_player mFoo pr.1 = some pr.2 :=
  C2_amended 999 2 [] mFoo ["foo", "bar"] [("foo", playerFoo)]
    (by decide) (by decide) rfl (by decide)

/-! ### Claim C3 -/

/-- Claim C3: claiming an alias currently owned by an unclaimed player merges
that player's entire alias set into the claiming identity, removes the shell
player from the registry, and leaves none of its aliases dangling.  The
`soleOwnerOK` hypothesis states that every already-bound proposed alias is the
single alias of its (distinct) owner — which holds in every program run, since
unclaimed players are auto-created with exactly one alias and never grow. -/
theorem C3_claim_merge (m : PlayerManager) (pid : Int) (aliases : List String)
    (hndA : (keysA m.alias_to_id).Nodup) (hndI : (keysA m.id_to_player).Nodup)
    (hsole : aliases.all (soleOwnerOK m pid) = true) (hdup : aliases.Nodup)
    (a : String) (ha : a ∈ aliases) (q : Int) (p' : Player)
    (hq : lookupA m.alias_to_id (some a) = some q)
    (hp' : lookupA m.id_to_player q = some p')
    (hunclaimed : p'.claimed = false) :
    ∃ m' fd nf, associate_aliases m pid aliases = some (m', fd, nf) ∧
      (∃ pm, lookupA m'.id_to_player pid = some pm ∧ ∀ x ∈ p'.aliases, x ∈ pm.aliases) ∧
      lookupA m'.id_to_player q = none ∧
      (∀ x ∈ p'.aliases, lookupA m'.alias_to_id (some x) = some pid) := by
  have hsole' : ∀ b ∈ aliases, soleOwnerOK m pid b = true := List.all_eq_true.mp hsole
  obtain ⟨hqpid, p'', hp'', hals⟩ := soleOwnerOK_spec m pid a (hsole' a ha) q hq
  rw [hp'] at hp''
  injection hp'' with hpp
  subst hpp
  obtain ⟨m', pm, heq, hR1, hR2, hpmNew, _, hR4, hR5, _, _, _⟩ :=
    associate_spec m pid aliases hndA hndI hsole' hdup
  refine ⟨m', _, _, heq, ⟨pm, hR2, ?_⟩, ?_, ?_⟩
  · intro x hx
    rw [hals] at hx
    exact (List.mem_singleton.mp hx) ▸ hpmNew a ha
  · exact hR4 q hqpid ⟨a, ha, hq⟩
  · intro x hx
    rw [hals] at hx
    rw [List.mem_singleton.mp hx, hR1 a, if_pos ha]

/-- An unclaimed auto-created player `3` owning alias `x` (counter already
advanced past it). -/
def mU : PlayerManager :=
  { alias_to_id := [(some "x", 3)],
    id_to_player := [(3, newPlayerByName "x" 3)], counter := 4 }

/-- Witness for the C3 theorem: identity `100` claims `["x", "y"]` where `x`
belongs to the unclaimed shell player `3`. -/
theorem C3_claim_merge_witness :
    ∃ m' fd nf, associate_aliases mU 100 ["x", "y"] = some (m', fd, nf) ∧
      (∃ pm, lookupA m'.id_to_player 100 = some pm ∧
        ∀ x ∈ (newPlayerByName "x" 3).aliases, x ∈ pm.aliases) ∧
      lookupA m'.id_to_player 3 = none ∧
      (∀ x ∈ (newPlayerByName "x" 3).aliases, lookupA m'.alias_to_id (some x) = some 100) :=
  C3_claim_merge mU 100 ["x", "y"] (by decide) (by decide) (by decide) (by decide)
    "x" (by decide) 3 (newPlayerByName "x" 3) rfl rfl rfl

/-! ### Claim C4 -/

/-- Claim C4 (code bug): for an integer id not in the registry, `get_player`
does fail with `PlayerNotFoundError` and never creates; but for a mention that
parses to an unknown id, the source reads `self.id_to_player[player_id]`
without a check, so it raises a bare `KeyError` instead of the
`PlayerNotFoundError` the spec requires — regardless of `create_missing`, and
still without creating anything. -/
theorem C4_mention_key_error :
    get_player emptyPM (.inl 7) true true = .error (.playerNotFound (.inl 7)) ∧
    parse_mention_to_id "<@7>" = .ok (some 7) ∧
    get_player emptyPM (.inr "<@7>") true true = .error .keyError ∧
    get_player emptyPM (.inr "<@7>") true false = .error .keyError :=
  ⟨rfl, rfl, rfl, rfl⟩

/-! ### Claim C5 -/

/-- Claim C5: resolving a free-text alias (one that does not parse as a
mention) returns the existing player unchanged when the alias is known;
otherwise it creates a new unclaimed player whose alias set is exactly the
singleton of the given text when `create_missing` holds, and fails with
`PlayerNotFoundError` when it does not. -/
theorem C5_resolution (m : PlayerManager) (s : String) (tm : Bool)
    (hm : parse_mention_to_id s = .ok none) :
    (∀ q p cm, lookupA m.alias_to_id (some s) = some q →
        lookupA m.id_to_player q = some p →
        get_player m (.inr s) tm cm = .ok (m, p)) ∧
    (lookupA m.alias_to_id (some s) = none →
        get_player m (.inr s) tm true = .ok (add_player m (.byName s)) ∧
        (add_player m (.byName s)).2.aliases = [s] ∧
        (add_player m (.byName s)).2.claimed = false ∧
        get_player m (.inr s) tm false = .error (.playerNotFound (.inr s))) := by
  have hpm : (if tm then parse_mention_to_id s else Except.ok none) =
      (Except.ok none : Except GPErr (Option Int)) := by
    cases tm <;> simp [hm]
  constructor
  · intro q p cm hq hp
    simp only [get_player, hpm]
    rw [if_pos (show alias_exists m s = true by unfold alias_exists; rw [hq]; rfl)]
    simp only [alias_to_player, hq, hp]
  · intro hnone
    have hex : ¬alias_exists m s = true := by
      unfold alias_exists
      rw [hnone]
      simp
    refine ⟨?_, rfl, rfl, ?_⟩
    · simp only [get_player, hpm]
      rw [if_neg hex]
      simp
    · simp only [get_player, hpm]
      rw [if_neg hex]
      simp

/-- A registry with one claimed player `9` owning alias `hal`. -/
def playerHal : Player := newPlayerById 9 ["hal"]

def mC5 : PlayerManager :=
  { alias_to_id := [(some "hal", 9)], id_to_player := [(9, playerHal)], counter := 0 }

/-- Witness for the C5 theorem: `hal` resolves to the existing player with the
state untouched; `bob` is created as a singleton-alias unclaimed player when
allowed and raises `PlayerNotFoundError` when not. -/
theorem C5_resolution_witness :
    get_player mC5 (.inr "hal") false true = .ok (mC5, playerHal) ∧
    (get_player mC5 (.inr "bob") false true = .ok (add_player mC5 (.byName "bob")) ∧
     (add_player mC5 (.byName "bob")).2.aliases = ["bob"] ∧
     (add_player mC5 (.byName "bob")).2.claimed = false ∧
     get_player mC5 (.inr "bob") false false = .error (.playerNotFound (.inr "bob"))) :=
  ⟨(C5_resolution mC5 "hal" false rfl).1 9 playerHal true rfl rfl,
   (C5_resolution mC5 "bob" false rfl).2 rfl⟩

/-! ### Claim C6 -/

/-- Claim C6, counterexample: with five ranked players,
`leaderboard_content(1, 3)` returns the players at ranks 1, 2 *and* 3 — the
source decrements `start` but not `stop` before the Python slice, so the
caller-facing `stop` is inclusive, not half-open as claimed. -/
theorem C6_counterexample :
    leaderboard_content ([1, 2, 3, 4, 5] : List Nat) 1 3 = [1, 2, 3] ∧
    leaderboard_content ([1, 2, 3, 4, 5] : List Nat) 1 3 ≠ [1, 2] := by
  constructor
  · rfl
  · decide

theorem take_min_length {α : Type} (l : List α) (b : Nat) :
    l.take (min b l.length) = l.take b := by
  rcases Nat.le_total b l.length with h | h
  · rw [Nat.min_eq_left h]
  · rw [Nat.min_eq_right h, List.take_length, List.take_of_length_le h]

theorem drop_min_of_length_le {α : Type} (l2 : List α) (a n : Nat)
    (hlen : l2.length ≤ n) : l2.drop (min a n) = l2.drop a := by
  rcases Nat.le_total a n with h | h
  · rw [Nat.min_eq_left h]
  · rw [Nat.min_eq_right h, List.drop_eq_nil_of_le hlen,
      List.drop_eq_nil_of_le (le_trans hlen h)]

/-- Claim C6, amended: the leaderboard slice is 1-based and inclusive on
*both* ends — `leaderboard_content(start, stop)` returns exactly the players
at ranks `start` through `stop`; out-of-range bounds only truncate (the
selection is a total function of take/drop, never an error). -/
theorem C6_amended {α : Type} (l : List α) (start stop : Int)
    (h1 : 1 ≤ start) (h2 : 0 ≤ stop) :
    leaderboard_content l start stop = (l.take stop.toNat).drop (start.toNat - 1) := by
  unfold leaderboard_content ranking_slice pySlice pyBound
  rw [if_pos (by omega : (0 : Int) ≤ start)]
  rw [if_neg (by omega : ¬(start - 1 < 0)), if_neg (by omega : ¬(stop < 0))]
  rw [show (start - 1).toNat = start.toNat - 1 by omega]
  rw [take_min_length]
  exact drop_min_of_length_le _ _ _
    (by rw [List.length_take]; exact Nat.min_le_right _ _)

/-- Witness for the amended C6 theorem: the in-range slice `(1, 3)` and the
out-of-range slice `(10, 20)` on five ranked players. -/
theorem C6_amended_witness :
    leaderboard_content ([1, 2, 3, 4, 5] : List Nat) 1 3 =
      (([1, 2, 3, 4, 5] : List Nat).take (3 : Int).toNat).drop ((1 : Int).toNat - 1) ∧
    leaderboard_content ([1, 2, 3, 4, 5] : List Nat) 10 20 =
      (([1, 2, 3, 4, 5] : List Nat).take (20 : Int).toNat).drop ((10 : Int).toNat - 1) :=
  ⟨C6_amended [1, 2, 3, 4, 5] 1 3 (by decide) (by decide),
   C6_amended [1, 2, 3, 4, 5] 10 20 (by decide) (by decide)⟩

/-! ### Claim C7 -/

/-- Claim C7: for two freshly created players (zero recorded games each) the
confident `comparison` is `None`, while the blind `win_estimate` is a defined
value computed purely from the prior `(mu0, sigma0)` beliefs — the argument of
the normal cdf reduces to the expression in the priors alone, whatever cdf and
square root are plugged in. -/
theorem C7_blind_vs_confident (cdf sq : ℚ → ℚ) (m1 m2 : PlayerManager) (n1 n2 : String) :
    comparison cdf sq (add_player m1 (.byName n1)).2 (add_player m2 (.byName n2)).2 = none ∧
    win_estimate cdf sq (add_player m1 (.byName n1)).2 (add_player m2 (.byName n2)).2 =
      cdf ((mu0 - mu0) / sq (2 * beta ^ 2 + sigma0 ^ 2 + sigma0 ^ 2)) := by
  constructor
  · simp [comparison, add_player, newPlayerByName, Player.total_games]
  · rfl

/-! ### Claim C8 -/

/-- Claim C8, counterexample: `clean_name` is not injective, hence not
losslessly recoverable: the distinct raw names `"a,"` and `"a_"` sanitize to
the same string. -/
theorem C8_counterexample :
    clean_name "a," = clean_name "a_" ∧ ("a," : String) ≠ "a_" := by
  constructor
  · rfl
  · decide

/-- Claim C8, amended: `clean_name` does guarantee the durable log's record
format — its output never contains a record separator (comma or newline) — but
the sanitization is lossy, not injective, so distinct raw names may collide
after writing. -/
theorem C8_amended (s : String) (c : Char) (hc : c ∈ (clean_name s).data) :
    c ≠ ',' ∧ c ≠ '\n' := by
  have hc' : c ∈ ((pyStrip s.data).map (fun ch => if ch = ',' then '_' else ch)).map
      (fun ch => if ch = '\n' then ' ' else ch) := hc
  obtain ⟨x, hx, hxc⟩ := List.mem_map.mp hc'
  obtain ⟨y, _, hyx⟩ := List.mem_map.mp hx
  subst hxc
  subst hyx
  constructor <;> (split_ifs <;> simp_all)

/-- Witness for the amended C8 theorem on the raw name `" a,b\n"`, whose
sanitized form is `"a_b"`. -/
theorem C8_amended_witness :
    'a' ∈ (clean_name " a,b\n").data ∧ ('a' ≠ ',' ∧ 'a' ≠ '\n') :=
  ⟨by decide, C8_amended " a,b\n" 'a' (by decide)⟩

/-! ### Claim C9 -/

/-- Claim C9: at every point of a player's lifetime — whatever sequence of
rating updates, snapshots and counter increments is applied to a freshly
created player — the current conservative score is `mu - 3*sigma`, and every
`PlayerState` snapshot stored in the history also satisfies
`score = mu - 3*sigma` for the values frozen in it. -/
theorem C9_history_score (name : String) (i : Int) (ops : List PlayerOp) :
    (applyOps (newPlayerByName name i) ops).score =
      (applyOps (newPlayerByName name i) ops).mu -
        3 * (applyOps (newPlayerByName name i) ops).sigma ∧
    ∀ e ∈ (applyOps (newPlayerByName name i) ops).states,
      e.2.score = e.2.mu - 3 * e.2.sigma := by
  refine ⟨rfl, ?_⟩
  have key : ∀ (ops' : List PlayerOp) (p : Player),
      (∀ e ∈ p.states, e.2.score = e.2.mu - 3 * e.2.sigma) →
      ∀ e ∈ (applyOps p ops').states, e.2.score = e.2.mu - 3 * e.2.sigma := by
    intro ops'
    induction ops' with
    | nil => intro p hp; exact hp
    | cons op rest ih =>
        intro p hp
        show ∀ e ∈ (applyOps (applyOp p op) rest).states, _
        apply ih
        cases op with
        | setRating mu sigma => exact hp
        | recordWin => exact hp
        | recordLoss => exact hp
        | saveState t r =>
            intro e he
            rcases mem_insertA _ _ _ _ he with h | h
            · exact hp e h
            · rw [h]
              rfl
  exact key ops (newPlayerByName name i) (by intro e he; simp [newPlayerByName] at he)

/-- The snapshot stored by `save_state` right after creation. -/
def stW9 : PlayerState :=
  { rank := none, mu := mu0, sigma := sigma0, score := mu0 - 3 * sigma0 }

/-- Witness for the C9 theorem: one snapshot taken right after creation, whose
stored score equals the stored `mu - 3*sigma = 25 - 3*(25/3)`. -/
theorem C9_history_score_witness :
    ((5 : ℚ), stW9) ∈
      (applyOps (newPlayerByName "w9" 0) [PlayerOp.saveState 5 none]).states ∧
    stW9.score = stW9.mu - 3 * stW9.sigma :=
  have hm : ((5 : ℚ), stW9) ∈
      (applyOps (newPlayerByName "w9" 0) [PlayerOp.saveState 5 none]).states :=
    List.mem_singleton.mpr rfl
  ⟨hm, (C9_history_score "w9" 0 [PlayerOp.saveState 5 none]).2 _ hm⟩

/-! ### Claim C10 -/

/-- Claim C10: `win_ratio` divides by `total_games` without a guard.  It is
well-defined and equal to `wins/(wins + losses)` exactly when the player has
played at least one game; with zero recorded games the division raises
(`ZeroDivisionError`, modelled `none`) instead of returning a value. -/
theorem C10_win_ratio (p : Player) :
    (p.total_games = 0 → p.win_ratio = none) ∧
    (0 < p.total_games →
      p.win_ratio = some ((p.wins : ℚ) / ((p.wins : ℚ) + (p.losses : ℚ)))) := by
  constructor
  · intro h
    unfold Player.win_ratio
    rw [if_pos h]
  · intro h
    unfold Player.win_ratio
    rw [if_neg (by omega)]
    congr 1
    unfold Player.total_games
    push_cast
    ring

/-- A player with three wins and one loss. -/
def playerV : Player :=
  { newPlayerByName "v" 8 with wins := 3, losses := 1 }

/-- Witness for the C10 theorem: a 3-1 player has ratio 3/4; a fresh player's
ratio raises. -/
theorem C10_win_ratio_witness :
    playerV.win_ratio =
      some ((playerV.wins : ℚ) / ((playerV.wins : ℚ) + (playerV.losses : ℚ))) ∧
    (newPlayerByName "q" 9).win_ratio = none :=
  ⟨(C10_win_ratio playerV).2 (by decide),
   (C10_win_ratio (newPlayerByName "q" 9)).1 rfl⟩

end Kaml
